import Mathlib

/-!
Verification of the voice-whisper streaming transcription pipeline.

This file gives a shallow embedding of the algorithmic core of the
repository and proves (or refutes) the frozen claims about it:

* `vad_simple` — the energy-ratio voice-activity gate of
  `src/stream_app/main.cpp` (lines 116-147);
* `mono_downmix`, `apply_gain`, `wasapi_resample` — the downmix /
  gain-normalization / linear-resample stage of
  `src/audio_capture/windows/wasapi_capture.cpp` (`capture_proc`,
  lines 284-318);
* `stream_resample`, `silence_scan`, `whisper_thread_step` — the
  queue-based processing thread of `src/stream/main.cpp`
  (lines 183-276);
* `compose_window` — the fixed-step window assembly of
  `src/stream_app/main.cpp` (lines 456-471);
* `RB`, `wasapi_push`, `sdl_callback`, `wasapi_get_core`,
  `sdl_get_core` — the two ring-buffer implementations
  (`audio_async_wasapi` in `wasapi_capture.cpp` lines 426-559 and
  `audio_async` in `src/stream/common-sdl.cpp` lines 106-179).

Machine floats are modelled by exact rationals, machine integers by
`Nat`/`Int` with the source's divisions and truncations made explicit.
-/

/-! ### Voice-activity gate (`vad_simple`, `src/stream_app/main.cpp` 116-147) -/

/-- Mean absolute value over the whole buffer:
`energy_all += fabsf(pcmf32[i]); ... energy_all /= n_samples;`. -/
def energy_all (pcm : List ℚ) : ℚ :=
  (pcm.map (fun x => |x|)).sum / pcm.length

/-- Mean absolute value over the last `nLast` samples:
the `i >= n_samples - n_samples_last` branch of the loop followed by
`energy_last /= n_samples_last;`. -/
def energy_last (pcm : List ℚ) (nLast : ℕ) : ℚ :=
  ((pcm.drop (pcm.length - nLast)).map (fun x => |x|)).sum / nLast

/-- `vad_simple(pcmf32, sample_rate, last_ms, vad_thold, freq_thold, verbose)`
from `src/stream_app/main.cpp`.  Returns `false` when the trailing window
does not fit, `false` when trailing energy exceeds `vad_thold * energy_all`,
`true` otherwise.  `freq_thold` and `verbose` only feed the log line. -/
def vad_simple (pcm : List ℚ) (rate lastMs : ℕ) (vadThold freqThold : ℚ)
    (verbose : Bool) : Bool :=
  let nSamples := pcm.length
  let nSamplesLast := rate * lastMs / 1000
  if nSamplesLast ≥ nSamples then
    false
  else if energy_last pcm nSamplesLast > vadThold * energy_all pcm then
    false
  else
    true

/-- The `use_vad` branch of the main loop (`src/stream_app/main.cpp` 473-493):
`pcm2` is the 2000 ms snapshot, `window` the `length_ms` snapshot; the window
is dispatched iff `vad_simple(pcm2, WHISPER_SAMPLE_RATE, 1000, ...)` is true. -/
def vad_branch (pcm2 window : List ℚ) (vadThold freqThold : ℚ) :
    Option (List ℚ) :=
  if vad_simple pcm2 16000 1000 vadThold freqThold false then some window
  else none

/-! ### Downmix and gain normalization (`capture_proc`, wasapi_capture.cpp 284-304) -/

/-- Channel-averaging downmix:
`mono_data[i] = (Σ_ch audio_data[i*channels+ch]) / channels`. -/
def mono_downmix (channels frames : ℕ) (audio : List ℚ) : List ℚ :=
  (List.range frames).map (fun i =>
    ((List.range channels).map (fun ch => audio.getD (i * channels + ch) 0)).sum
      / channels)

/-- `max_amplitude = max(max_amplitude, std::abs(mono_data[i]))` folded over
the frame, starting from `0.0f`. -/
def max_amplitude (mono : List ℚ) : ℚ :=
  mono.foldl (fun m x => max m |x|) 0

/-- The gain-normalization step: `if (max_amplitude > 0 && max_amplitude < 0.1f)`
every sample is multiplied by `gain = 0.1f / max_amplitude`. -/
def apply_gain (mono : List ℚ) : List ℚ :=
  let m := max_amplitude mono
  if 0 < m ∧ m < 1 / 10 then mono.map (fun x => x * (1 / 10 / m)) else mono

/-- The downmix-plus-normalization stage of `capture_proc` before resampling. -/
def capture_downmix_stage (channels frames : ℕ) (audio : List ℚ) : List ℚ :=
  apply_gain (mono_downmix channels frames audio)

/-! ### Linear resampling (wasapi_capture.cpp 306-318 and stream/main.cpp 213-226) -/

/-- The linear-interpolation resampler of `capture_proc`
(`wasapi_capture.cpp` 306-318): output count
`(int)((float)frames * 16000 / original_sample_rate)`; for each output `i`,
`position = i * original_sample_rate / 16000`, integer part and fraction,
with a last-sample clamp when `index >= frames - 1`. -/
def wasapi_resample (srcRate : ℕ) (mono : List ℚ) : List ℚ :=
  let frames := mono.length
  let resampledFrames := frames * 16000 / srcRate
  (List.range resampledFrames).map (fun i =>
    let index := i * srcRate / 16000
    let fraction : ℚ := (i * srcRate : ℚ) / 16000 - (index : ℚ)
    if index ≥ frames - 1 then mono.getD (frames - 1) 0
    else mono.getD index 0 * (1 - fraction) + mono.getD (index + 1) 0 * fraction)

/-- The resample loop of `whisper_processing_thread`
(`src/stream/main.cpp` 213-226): same arithmetic with
`src_idx = i * sample_rate / WHISPER_SAMPLE_RATE` and a `back()` clamp when
`src_idx_floor >= audio_data.size() - 1`. -/
def stream_resample (srcRate : ℕ) (audio : List ℚ) : List ℚ :=
  let n := audio.length
  let outLen := n * 16000 / srcRate
  (List.range outLen).map (fun i =>
    let srcIdxFloor := i * srcRate / 16000
    let t : ℚ := (i * srcRate : ℚ) / 16000 - (srcIdxFloor : ℚ)
    if srcIdxFloor ≥ n - 1 then audio.getD (n - 1) 0
    else audio.getD srcIdxFloor 0 * (1 - t) + audio.getD (srcIdxFloor + 1) 0 * t)

/-! ### Fixed-step window composition (`src/stream_app/main.cpp` 456-471) -/

/-- `n_samples_take = min(old.size(), max(0, n_samples_keep + n_samples_len -
n_samples_new))`; the window is the kept tail of the previous window followed
by the new samples. -/
def compose_window (nSamplesLen nSamplesKeep : ℕ) (old nw : List ℚ) : List ℚ :=
  let nTake : ℤ :=
    min (old.length : ℤ) (max 0 ((nSamplesKeep : ℤ) + nSamplesLen - nw.length))
  old.drop (old.length - nTake.toNat) ++ nw

/-! ### Queue-based processing thread (`src/stream/main.cpp` 183-276) -/

/-- The validity scan: running maximum of `|sample|` with early exit as soon
as the maximum exceeds `0.01f`; mirrors the `for (float sample : audio_data)`
loop with `break`. -/
def silence_scan : List ℚ → ℚ → Bool
  | [], _ => false
  | x :: xs, m =>
    let m₂ := max m |x|
    if 1 / 100 < m₂ then true else silence_scan xs m₂

/-- Result of one iteration of `whisper_processing_thread`:
the retained `audio_data` and the window handed to `whisper_full`
(`none` when no dispatch happened this cycle). -/
structure StepResult where
  audioData : List ℚ
  window : Option (List ℚ)
  deriving Repr, DecidableEq

/-- One iteration of the body of `whisper_processing_thread`
(`src/stream/main.cpp` 183-276), parameterized by the return code `wret`
of the external `whisper_full` call: drain the queue into `audio_data`;
once `n_samples_len` samples have accumulated, clear-and-skip if the
validity scan fails, otherwise resample and dispatch; on engine failure
`continue` (keeping `audio_data`), on success keep the last
`n_samples_len - n_samples_step` samples. -/
def whisper_thread_step (srcRate nSamplesLen nSamplesStep : ℕ) (wret : ℤ)
    (audio0 : List ℚ) (chunks : List (List ℚ)) : StepResult :=
  let audio := audio0 ++ chunks.flatten
  if nSamplesLen ≤ audio.length then
    if silence_scan audio 0 then
      let processed := stream_resample srcRate audio
      if wret ≠ 0 then
        { audioData := audio, window := some processed }
      else
        let nSamplesKeep : ℤ := (nSamplesLen : ℤ) - (nSamplesStep : ℤ)
        if 0 < nSamplesKeep ∧ nSamplesKeep < (audio.length : ℤ) then
          { audioData := audio.drop (audio.length - nSamplesKeep.toNat),
            window := some processed }
        else
          { audioData := [], window := some processed }
    else
      { audioData := [], window := none }
  else
    { audioData := audio, window := none }

/-- The `whisper_full` error path of the `stream_app` main loop
(`src/stream_app/main.cpp` 523-526): a nonzero return makes `main`
return exit code `7`; `none` means the loop continues. -/
def stream_app_infer_outcome (ret : ℤ) : Option ℤ :=
  if ret ≠ 0 then some 7 else none

/-! ### Ring buffers

Two implementations share the same circular-store layout:
`audio_async_wasapi` (`wasapi_capture.cpp` 426-559) and the SDL
`audio_async` (`src/stream/common-sdl.cpp` 106-179).  The storage is
modelled as a total function `ℕ → ℚ` of which only indices `< C`
(the capacity) are meaningful. -/

/-- Ring-buffer state: storage, write position, valid length. -/
structure RB where
  buf : ℕ → ℚ
  pos : ℕ
  len : ℕ

/-- The state after construction / `clear()`: zeroed storage,
`writePos = 0`, `validLen = 0`. -/
def rbEmpty : RB := ⟨fun _ => 0, 0, 0⟩

/-- `memcpy(&buf[start], data, data.length)`: overwrite the contiguous
index range `[start, start + data.length)`. -/
def writeAt (buf : ℕ → ℚ) (start : ℕ) (data : List ℚ) : ℕ → ℚ :=
  fun k => if start ≤ k ∧ k < start + data.length then data.getD (k - start) 0
           else buf k

/-- `audio_async_wasapi::audio_callback_wrapper` (wasapi_capture.cpp 542-558):
split copy on wraparound, `buffer_pos_ = (buffer_pos_ + frames) % size`, and
`buffer_len_ = size` on wraparound or
`min(buffer_len_ + frames, size)` otherwise. -/
def wasapi_push (C : ℕ) (st : RB) (chunk : List ℚ) : RB :=
  if C < st.pos + chunk.length then
    let n0 := C - st.pos
    { buf := writeAt (writeAt st.buf st.pos (chunk.take n0)) 0 (chunk.drop n0)
      pos := (st.pos + chunk.length) % C
      len := C }
  else
    { buf := writeAt st.buf st.pos chunk
      pos := (st.pos + chunk.length) % C
      len := min (st.len + chunk.length) C }

/-- `audio_async::callback` (common-sdl.cpp 120-148): same split copy, but
`m_audio_pos` is advanced by plain addition with an explicit reset at the
end, and `m_audio_len = m_audio.size()` unconditionally. -/
def sdl_callback (C : ℕ) (st : RB) (chunk : List ℚ) : RB :=
  if C < st.pos + chunk.length then
    let n0 := C - st.pos
    { buf := writeAt (writeAt st.buf st.pos (chunk.take n0)) 0 (chunk.drop n0)
      pos := chunk.length - n0
      len := C }
  else
    let p := st.pos + chunk.length
    { buf := writeAt st.buf st.pos chunk
      pos := if C ≤ p then 0 else p
      len := C }

/-- `audio_async_wasapi::get` core (wasapi_capture.cpp 508-540) acting on a
sample count: `if (n_samples > buffer_len_) n_samples = buffer_len_;`,
`int s0 = buffer_pos_ - n_samples; if (s0 < 0) s0 += size;`, then a split
copy when `s0 + n_samples > size`. -/
def wasapi_get_core (C : ℕ) (st : RB) (nReq : ℕ) : List ℚ :=
  let n := if st.len < nReq then st.len else nReq
  let s0i : ℤ := (st.pos : ℤ) - (n : ℤ)
  let s0 : ℕ := (if s0i < 0 then s0i + (C : ℤ) else s0i).toNat
  if C < s0 + n then
    let n0 := C - s0
    (List.range n0).map (fun j => st.buf (s0 + j)) ++
      (List.range (n - n0)).map (fun j => st.buf j)
  else
    (List.range n).map (fun j => st.buf (s0 + j))

/-- `audio_async::get` core (common-sdl.cpp 150-179) acting on a sample
count: requests beyond `m_audio_len` return an empty result; otherwise
`pos = m_audio_pos > n_samples ? m_audio_pos - n_samples
: m_audio.size() - (n_samples - m_audio_pos)` followed by a split copy when
`pos + n_samples > m_audio.size()`. -/
def sdl_get_core (C : ℕ) (st : RB) (n : ℕ) : List ℚ :=
  if st.len < n then []
  else
    let p := if n < st.pos then st.pos - n else C - (n - st.pos)
    if p + n ≤ C then
      (List.range n).map (fun j => st.buf (p + j))
    else
      let n0 := C - p
      (List.range n0).map (fun j => st.buf (p + j)) ++
        (List.range (n - n0)).map (fun j => st.buf j)

/-- `audio_async_wasapi::get(ms, ...)`: `ms <= 0` is replaced by the
configured `len_ms_`, and the sample count is `(sample_rate_ * ms) / 1000`. -/
def wasapi_get (C rate : ℕ) (lenMs : ℤ) (st : RB) (ms : ℤ) : List ℚ :=
  let ms₂ := if ms ≤ 0 then lenMs else ms
  wasapi_get_core C st ((rate * ms₂ / 1000).toNat)

/-- `audio_async::get(ms, ...)`: identical `ms <= 0` fixup and sample-count
computation in the SDL implementation. -/
def sdl_get (C rate : ℕ) (lenMs : ℤ) (st : RB) (ms : ℤ) : List ℚ :=
  let ms₂ := if ms ≤ 0 then lenMs else ms
  sdl_get_core C st ((rate * ms₂ / 1000).toNat)

/-- Canonical modular read: `n` consecutive slots starting at `s0`,
wrapping modulo the capacity. -/
def modRead (C : ℕ) (buf : ℕ → ℚ) (s0 n : ℕ) : List ℚ :=
  (List.range n).map (fun j => buf ((s0 + j) % C))

/-- The suffix of length `n` of a list (`takeRight`): the chronological
`most recent n samples` of a push history. -/
def takeTail (l : List ℚ) (n : ℕ) : List ℚ :=
  l.drop (l.length - n)

/-- The storage/write-position abstraction relating a ring-buffer state to
the flat history `h` of all samples pushed so far: the write position is
`h.length` reduced modulo the capacity, and for every `i` below
`min h.length C` the slot `i` steps behind the write position holds the
`i`-th most recent sample of `h`. -/
def RingInv (C : ℕ) (st : RB) (h : List ℚ) : Prop :=
  st.pos = h.length % C ∧
  ∀ i, i < min h.length C →
    st.buf ((h.length + C - 1 - i) % C) = h.getD (h.length - 1 - i) 0

/-- `RingInv` together with the WASAPI valid-length law
`buffer_len_ = min(totalPushed, capacity)`. -/
def WasapiInv (C : ℕ) (st : RB) (h : List ℚ) : Prop :=
  RingInv C st h ∧ st.len = min h.length C

/-! ### Helper lemmas on lists and modular arithmetic -/

lemma getD_drop (l : List ℚ) (n i : ℕ) : (l.drop n).getD i 0 = l.getD (n + i) 0 := by
  simp [List.getD_eq_getElem?_getD, List.getElem?_drop]

lemma getD_take (l : List ℚ) (n i : ℕ) (h : i < n) : (l.take n).getD i 0 = l.getD i 0 := by
  simp [List.getD_eq_getElem?_getD, List.getElem?_take, h]

lemma map_getD_range (l : List ℚ) :
    (List.range l.length).map (fun i => l.getD i 0) = l := by
  apply List.ext_get
  · simp
  · intro i h1 h2
    simp only [List.get_eq_getElem, List.getElem_map, List.getElem_range]
    rw [List.getD_eq_getElem]

lemma addModInj (C a x y : ℕ) (hx : x < C) (hy : y < C)
    (hmod : (a + x) % C = (a + y) % C) : x = y := by
  have h1 : x ≡ y [MOD C] := Nat.ModEq.add_left_cancel' a hmod
  unfold Nat.ModEq at h1
  rwa [Nat.mod_eq_of_lt hx, Nat.mod_eq_of_lt hy] at h1

/-! ### Claim C8 — `freq_thold` never influences the VAD decision -/

/-- C8: two `vad_simple` calls that agree on the samples, sample rate,
trailing window, threshold and verbosity but differ arbitrarily in
`freq_thold` return the same boolean: the high-pass cutoff parameter is
only echoed in the verbose log line and never enters the decision. -/
theorem vad_simple_ignores_freq_thold (pcm : List ℚ) (rate lastMs : ℕ)
    (vadThold freq₁ freq₂ : ℚ) (verbose : Bool) :
    vad_simple pcm rate lastMs vadThold freq₁ verbose
      = vad_simple pcm rate lastMs vadThold freq₂ verbose := rfl

/-! ### Claim C2 — what the VAD gate actually dispatches on -/

/-- C2 (counterexample): a buffer that the claim classifies as speech —
its trailing energy strictly exceeds `vad_thold * energy_all` — is in fact
rejected by `vad_simple`, so the VAD-triggered mode does not dispatch on it:
the code returns `false` (skip) exactly when `energy_last > thold * energy_all`.
Here `pcm = [0,0,1,1]`, `rate = 4`, `last_ms = 500`, so `nLast = 2 < 4`,
`energy_all = 1/2`, `energy_last = 1 > (3/5) * (1/2)`. -/
theorem vad_gate_inverted_cex :
    (4 * 500 / 1000 : ℕ) < ([0, 0, 1, 1] : List ℚ).length ∧
    (3 / 5 : ℚ) * energy_all [0, 0, 1, 1]
      < energy_last [0, 0, 1, 1] (4 * 500 / 1000) ∧
    vad_simple [0, 0, 1, 1] 4 500 (3 / 5) 100 false = false := by
  refine ⟨by norm_num, by norm_num [energy_all, energy_last],
    by norm_num [vad_simple, energy_all, energy_last]⟩

/-- C2 (amended): in VAD-triggered mode the `length_ms` window is fetched
and dispatched exactly when the 2000 ms probe is long enough and its
trailing-second energy is at most `vad_thold * energy_all` — the opposite
inequality of the claim: `vad_simple` returns true on trailing *silence*
(speech just ended), not on trailing activity. -/
theorem vad_branch_dispatch_iff (pcm2 w : List ℚ) (vadThold freqThold : ℚ)
    (h : 16000 < pcm2.length) :
    vad_branch pcm2 w vadThold freqThold = some w ↔
      energy_last pcm2 16000 ≤ vadThold * energy_all pcm2 := by
  have h16 : (16000 * 1000 / 1000 : ℕ) = 16000 := by norm_num
  unfold vad_branch vad_simple
  rw [h16]
  rw [if_neg (by omega : ¬ 16000 ≥ pcm2.length)]
  by_cases hc : energy_last pcm2 16000 > vadThold * energy_all pcm2
  · rw [if_pos hc]
    simp only [if_neg (Bool.false_ne_true)]
    constructor
    · intro hcontra; exact absurd hcontra (by simp)
    · intro hle; exact absurd hc (not_lt.mpr hle)
  · rw [if_neg hc]
    simp only [if_pos rfl]
    exact ⟨fun _ => not_lt.mp hc, fun _ => rfl⟩

/-- Witness for `vad_branch_dispatch_iff` at a concrete 16001-sample probe. -/
theorem vad_branch_dispatch_iff_witness :
    vad_branch (List.replicate 16001 1) [] (3 / 5) 100 = some [] ↔
      energy_last (List.replicate 16001 1) 16000
        ≤ (3 / 5) * energy_all (List.replicate 16001 1) :=
  vad_branch_dispatch_iff (List.replicate 16001 1) [] (3 / 5) 100
    (by rw [List.length_replicate]; norm_num)

/-! ### Claim C9 — nonpositive `ms` requests the full configured duration -/

/-- C9: in both ring-buffer read implementations a request with `ms ≤ 0`
is replaced by the configured `len_ms`, so `get(0)` returns exactly the
same sequence as `get(len_ms)` on the same state. -/
theorem get_nonpositive_ms_full_window (C rate : ℕ) (lenMs : ℤ) (st : RB)
    (h : 0 < lenMs) :
    sdl_get C rate lenMs st 0 = sdl_get C rate lenMs st lenMs ∧
    wasapi_get C rate lenMs st 0 = wasapi_get C rate lenMs st lenMs := by
  have h1 : ¬ (lenMs ≤ 0) := not_le.mpr h
  constructor
  · simp [sdl_get, h1]
  · simp [wasapi_get, h1]

/-- Witness for `get_nonpositive_ms_full_window` on a concrete buffer. -/
theorem get_nonpositive_ms_full_window_witness :
    sdl_get 2 16000 1 rbEmpty 0 = sdl_get 2 16000 1 rbEmpty 1 ∧
    wasapi_get 2 16000 1 rbEmpty 0 = wasapi_get 2 16000 1 rbEmpty 1 :=
  get_nonpositive_ms_full_window 2 16000 1 rbEmpty (by decide)

/-! ### Claim C5 — length of the composed fixed-step window -/

/-- C5 (counterexample): with `n_samples_len = 4`, `n_samples_keep = 1`,
`n_samples_step = 2` (so `keep ≤ step ≤ len` as `main` enforces), a previous
window of 5 samples (≤ `len + keep`, a reachable window size) and exactly
`n_samples_step = 2` new samples, the composed window has 5 samples —
strictly more than `n_samples_len`: the composition is capped at
`n_samples_keep + n_samples_len`, not at `n_samples_len`. -/
theorem compose_window_exceeds_len_cex :
    4 < (compose_window 4 1 (List.replicate 5 (0 : ℚ))
          (List.replicate 2 (0 : ℚ))).length := by
  norm_num [compose_window]
  omega

/-- C5 (amended): every composed window has length
`nNew + min(oldLen, max(0, nKeep + nLen − nNew))`; this is at least the
new-sample count and at most `max (nKeep + nLen) nNew` — the true cap is
`nKeep + nLen`, not `nLen`, and no lower bound of `nLen − nStep` holds. -/
theorem compose_window_length_bounds (nSamplesLen nSamplesKeep : ℕ)
    (old nw : List ℚ) :
    (compose_window nSamplesLen nSamplesKeep old nw).length
      = nw.length + (min (old.length : ℤ)
          (max 0 ((nSamplesKeep : ℤ) + nSamplesLen - nw.length))).toNat ∧
    nw.length ≤ (compose_window nSamplesLen nSamplesKeep old nw).length ∧
    (compose_window nSamplesLen nSamplesKeep old nw).length
      ≤ max (nSamplesKeep + nSamplesLen) nw.length := by
  unfold compose_window
  simp only [List.length_append, List.length_drop]
  omega

/-! ### Claim C6 — gain normalization has no toggle -/

lemma foldl_max_abs_map_mul (g : ℚ) (hg : 0 ≤ g) (l : List ℚ) :
    ∀ a : ℚ, (l.map (fun x => x * g)).foldl (fun m x => max m |x|) (a * g)
      = (l.foldl (fun m x => max m |x|) a) * g := by
  induction l with
  | nil => intro a; simp
  | cons x xs ih =>
    intro a
    simp only [List.map_cons, List.foldl_cons]
    have hmax : max (a * g) |x * g| = max a |x| * g := by
      rw [abs_mul, abs_of_nonneg hg, ← max_mul_of_nonneg _ _ hg]
    rw [hmax]
    exact ih (max a |x|)

lemma max_amplitude_map_mul (g : ℚ) (hg : 0 ≤ g) (l : List ℚ) :
    max_amplitude (l.map (fun x => x * g)) = max_amplitude l * g := by
  unfold max_amplitude
  have h := foldl_max_abs_map_mul g hg l 0
  rwa [zero_mul] at h

lemma range_one_eq : List.range 1 = [0] := rfl

lemma mono_downmix_single : mono_downmix 1 1 [1 / 20] = [1 / 20] := by
  norm_num [mono_downmix, range_one_eq]

lemma max_amplitude_single : max_amplitude [(1 : ℚ) / 20] = 1 / 20 := by
  norm_num [max_amplitude]

lemma apply_gain_single : apply_gain [(1 : ℚ) / 20] = [1 / 10] := by
  simp only [apply_gain, max_amplitude_single]
  norm_num

/-- C6 (counterexample): for the single-channel frame `[1/20]` — whose mono
peak `1/20` lies in `(0, 1/10)` — the downmix stage scales the output (to
`[1/10]`), although the claim says the default (not explicitly enabled)
behavior is to output the plain channel average unscaled.  No configuration
toggle exists anywhere in `capture_proc` or its callers. -/
theorem gain_applied_by_default_cex :
    0 < max_amplitude (mono_downmix 1 1 [1 / 20]) ∧
    max_amplitude (mono_downmix 1 1 [1 / 20]) < 1 / 10 ∧
    capture_downmix_stage 1 1 [1 / 20] ≠ mono_downmix 1 1 [1 / 20] := by
  rw [capture_downmix_stage, mono_downmix_single, max_amplitude_single,
    apply_gain_single]
  norm_num

/-- C6 (amended): gain normalization is unconditional.  Whenever the mono
peak lies in `(0, 1/10)` every sample is scaled by `(1/10) / peak` (bringing
the output peak to exactly `1/10`); otherwise the stage is the identity on
the channel-average mono samples. -/
theorem gain_normalization_unconditional (channels frames : ℕ)
    (audio : List ℚ) :
    (0 < max_amplitude (mono_downmix channels frames audio) →
      max_amplitude (mono_downmix channels frames audio) < 1 / 10 →
      capture_downmix_stage channels frames audio
        = (mono_downmix channels frames audio).map
            (fun x => x * (1 / 10 / max_amplitude (mono_downmix channels frames audio))) ∧
      max_amplitude (capture_downmix_stage channels frames audio) = 1 / 10) ∧
    (¬ (0 < max_amplitude (mono_downmix channels frames audio)
          ∧ max_amplitude (mono_downmix channels frames audio) < 1 / 10) →
      capture_downmix_stage channels frames audio
        = mono_downmix channels frames audio) := by
  constructor
  · intro h1 h2
    have hne : max_amplitude (mono_downmix channels frames audio) ≠ 0 :=
      ne_of_gt h1
    have heq : capture_downmix_stage channels frames audio
        = (mono_downmix channels frames audio).map
            (fun x => x * (1 / 10 / max_amplitude (mono_downmix channels frames audio))) := by
      unfold capture_downmix_stage apply_gain
      rw [if_pos ⟨h1, h2⟩]
    refine ⟨heq, ?_⟩
    rw [heq, max_amplitude_map_mul _ (by positivity) _, mul_comm,
      div_mul_cancel₀ _ hne]
  · intro hneg
    unfold capture_downmix_stage apply_gain
    rw [if_neg hneg]

/-- Witness for `gain_normalization_unconditional` on the frame `[1/20]`. -/
theorem gain_normalization_unconditional_witness :
    capture_downmix_stage 1 1 [1 / 20]
        = (mono_downmix 1 1 [1 / 20]).map
            (fun x => x * (1 / 10 / max_amplitude (mono_downmix 1 1 [1 / 20]))) ∧
    max_amplitude (capture_downmix_stage 1 1 [1 / 20]) = 1 / 10 :=
  (gain_normalization_unconditional 1 1 [1 / 20]).1
    (by rw [mono_downmix_single, max_amplitude_single]; norm_num)
    (by rw [mono_downmix_single, max_amplitude_single]; norm_num)

/-! ### Claim C7 — equal rates make the resampler the identity -/

lemma wasapi_resample_same_rate (mono : List ℚ) :
    wasapi_resample 16000 mono = mono := by
  have hlen : mono.length * 16000 / 16000 = mono.length := by omega
  have hidx : ∀ i : ℕ, i * 16000 / 16000 = i := fun i => by omega
  simp only [wasapi_resample, hlen, hidx]
  refine Eq.trans (List.map_congr_left ?_) (map_getD_range mono)
  intro i hi
  rw [List.mem_range] at hi
  rcases le_or_lt (mono.length - 1) i with hc | hc
  · rw [if_pos hc]
    have hie : i = mono.length - 1 := by omega
    rw [hie]
  · rw [if_neg (not_le.mpr hc)]
    have key : ∀ X : ℚ, X = 0 →
        mono.getD i 0 * (1 - X) + mono.getD (i + 1) 0 * X = mono.getD i 0 := by
      intro X hX; rw [hX]; ring
    apply key
    push_cast
    field_simp

lemma stream_resample_eq_wasapi (srcRate : ℕ) (l : List ℚ) :
    stream_resample srcRate l = wasapi_resample srcRate l := rfl

/-- C7: with `sourceSampleRate = targetSampleRate = 16000` both linear
resamplers are the identity on the (non-empty) mono input: the output count
equals the input count, every interior position lands on an integer index
with zero fraction, and the final index takes the last-sample clamp. -/
theorem resample_identity (mono : List ℚ) (h : mono ≠ []) :
    wasapi_resample 16000 mono = mono ∧ stream_resample 16000 mono = mono :=
  ⟨wasapi_resample_same_rate mono,
    (stream_resample_eq_wasapi 16000 mono).trans (wasapi_resample_same_rate mono)⟩

/-- Witness for `resample_identity` on `[2, 3]`. -/
theorem resample_identity_witness :
    wasapi_resample 16000 [2, 3] = [2, 3] ∧
    stream_resample 16000 [2, 3] = [2, 3] :=
  resample_identity [2, 3] (by simp)

/-! ### Claims C4 and C10 — engine-failure semantics and the silence gate -/

lemma silence_scan_iff (l : List ℚ) :
    ∀ m : ℚ, m ≤ 1 / 100 →
      (silence_scan l m = true ↔ ∃ x ∈ l, 1 / 100 < |x|) := by
  induction l with
  | nil => intro m hm; simp [silence_scan]
  | cons x xs ih =>
    intro m hm
    rw [silence_scan]
    by_cases hx : (1 : ℚ) / 100 < max m |x|
    · rw [if_pos hx]
      have hxgt : (1 : ℚ) / 100 < |x| := by
        rcases lt_max_iff.mp hx with h | h
        · exact absurd hm (not_le.mpr h)
        · exact h
      simp only [true_iff]
      exact ⟨x, List.mem_cons_self x xs, hxgt⟩
    · rw [if_neg hx]
      have hm2 : max m |x| ≤ 1 / 100 := not_lt.mp hx
      rw [ih _ hm2]
      have hxle : |x| ≤ 1 / 100 := le_trans (le_max_right m |x|) hm2
      constructor
      · rintro ⟨y, hy, hyP⟩
        exact ⟨y, List.mem_cons_of_mem _ hy, hyP⟩
      · rintro ⟨y, hy, hyP⟩
        rcases List.mem_cons.mp hy with heq | hmem
        · exact absurd hyP (by rw [heq]; exact not_lt.mpr hxle)
        · exact ⟨y, hmem, hyP⟩

/-- C4 (counterexample): a nonzero `whisper_full` return in the `stream_app`
main loop does not merely log and continue — `main` returns exit code 7,
terminating the processing loop, contrary to the claim that no error code
is returned to the caller because of the failed window. -/
theorem stream_app_whisper_failure_exits_cex :
    stream_app_infer_outcome 1 = some 7 := by
  norm_num [stream_app_infer_outcome]

/-- C4 (amended): the two pipelines diverge on engine failure.  In the
queue-based `whisper_processing_thread`, a nonzero `whisper_full` return
logs and continues ticking, but the accumulated window is retained rather
than discarded (the `continue` skips the keep-tail trim).  In the
`stream_app` main loop the same failure terminates `main` with exit
code 7. -/
theorem whisper_failure_semantics (ret : ℤ) (hret : ret ≠ 0)
    (srcRate nSamplesLen nSamplesStep : ℕ) (audio0 : List ℚ)
    (chunks : List (List ℚ))
    (hlen : nSamplesLen ≤ (audio0 ++ chunks.flatten).length)
    (hvalid : silence_scan (audio0 ++ chunks.flatten) 0 = true) :
    stream_app_infer_outcome ret = some 7 ∧
    (whisper_thread_step srcRate nSamplesLen nSamplesStep ret audio0 chunks).audioData
      = audio0 ++ chunks.flatten ∧
    (whisper_thread_step srcRate nSamplesLen nSamplesStep ret audio0 chunks).window
      = some (stream_resample srcRate (audio0 ++ chunks.flatten)) := by
  refine ⟨by simp [stream_app_infer_outcome, hret], ?_, ?_⟩ <;>
    · unfold whisper_thread_step
      rw [if_pos hlen, if_pos hvalid, if_pos hret]

/-- Witness for `whisper_failure_semantics` with return code 1 and a
one-sample accumulated buffer. -/
theorem whisper_failure_semantics_witness :
    stream_app_infer_outcome 1 = some 7 ∧
    (whisper_thread_step 16000 1 1 1 [1] []).audioData = [1] ++ ([] : List (List ℚ)).flatten ∧
    (whisper_thread_step 16000 1 1 1 [1] []).window
      = some (stream_resample 16000 ([1] ++ ([] : List (List ℚ)).flatten)) :=
  whisper_failure_semantics 1 (by norm_num) 16000 1 1 [1] []
    (by norm_num)
    (by norm_num [silence_scan])

/-- C10: once at least `n_samples_len` samples have accumulated, the window
is resampled and dispatched to the engine iff some accumulated sample has
absolute value strictly greater than `0.01`; if every sample is at most
`0.01` in absolute value, the accumulated buffer is cleared and the cycle
is skipped with no dispatch. -/
theorem silence_gate_dispatch (srcRate nSamplesLen nSamplesStep : ℕ)
    (wret : ℤ) (audio0 : List ℚ) (chunks : List (List ℚ))
    (hlen : nSamplesLen ≤ (audio0 ++ chunks.flatten).length) :
    ((whisper_thread_step srcRate nSamplesLen nSamplesStep wret audio0 chunks).window.isSome
        = true ↔ ∃ s ∈ audio0 ++ chunks.flatten, 1 / 100 < |s|) ∧
    ((∀ s ∈ audio0 ++ chunks.flatten, |s| ≤ 1 / 100) →
      whisper_thread_step srcRate nSamplesLen nSamplesStep wret audio0 chunks
        = { audioData := [], window := none }) := by
  constructor
  · by_cases hs : silence_scan (audio0 ++ chunks.flatten) 0 = true
    · have hw : (whisper_thread_step srcRate nSamplesLen nSamplesStep wret audio0 chunks).window.isSome = true := by
        unfold whisper_thread_step
        rw [if_pos hlen, if_pos hs]
        dsimp only
        split
        · rfl
        · split <;> rfl
      rw [hw]
      simp only [true_iff]
      exact (silence_scan_iff _ 0 (by norm_num)).mp hs
    · have hsf : silence_scan (audio0 ++ chunks.flatten) 0 = false :=
        Bool.eq_false_iff.mpr hs
      have hw : whisper_thread_step srcRate nSamplesLen nSamplesStep wret audio0 chunks
          = { audioData := [], window := none } := by
        unfold whisper_thread_step
        rw [if_pos hlen, hsf]
        simp
      rw [hw]
      constructor
      · intro hcontra; exact absurd hcontra (by simp)
      · intro hex
        exact absurd ((silence_scan_iff _ 0 (by norm_num)).mpr hex) hs
  · intro hall
    have hsf : silence_scan (audio0 ++ chunks.flatten) 0 = false := by
      cases hcase : silence_scan (audio0 ++ chunks.flatten) 0
      · rfl
      · obtain ⟨s, hmem, hgt⟩ := (silence_scan_iff _ 0 (by norm_num)).mp hcase
        exact absurd (hall s hmem) (not_le.mpr hgt)
    unfold whisper_thread_step
    rw [if_pos hlen, hsf]
    simp

/-- Witness for `silence_gate_dispatch` on a one-sample quiet buffer. -/
theorem silence_gate_dispatch_witness :
    ((whisper_thread_step 16000 1 1 0 [1 / 200] []).window.isSome
        = true ↔ ∃ s ∈ [(1 : ℚ) / 200] ++ ([] : List (List ℚ)).flatten, 1 / 100 < |s|) ∧
    ((∀ s ∈ [(1 : ℚ) / 200] ++ ([] : List (List ℚ)).flatten, |s| ≤ 1 / 100) →
      whisper_thread_step 16000 1 1 0 [1 / 200] []
        = { audioData := [], window := none }) :=
  silence_gate_dispatch 16000 1 1 0 [1 / 200] [] (by norm_num)

/-! ### Claim C3 — state update on push -/

/-- C3 (counterexample): pushing a single sample into an empty SDL ring
buffer of capacity 2 sets `m_audio_len` to the full capacity 2, not to
`min(validLen + len, capacity) = 1`: `audio_async::callback` executes
`m_audio_len = m_audio.size();` unconditionally. -/
theorem sdl_validlen_cex :
    (sdl_callback 2 rbEmpty [(5 : ℚ)]).len = 2 ∧
    min (rbEmpty.len + 1) 2 = 1 := by
  constructor <;> rfl

/-- C3 (amended): on every push of a chunk of at most `C` samples into a
well-formed state, both implementations advance the write position to
`(writePos + len) mod C`; the WASAPI callback updates
`validLen' = min(validLen + len, C)` as claimed, but the SDL callback sets
`validLen' = C` unconditionally. -/
theorem push_state_update (C : ℕ) (st : RB) (chunk : List ℚ) (hC : 0 < C)
    (hpos : st.pos < C) (hple : st.pos ≤ st.len) (hlen : st.len ≤ C)
    (hk : chunk.length ≤ C) :
    (wasapi_push C st chunk).pos = (st.pos + chunk.length) % C ∧
    (wasapi_push C st chunk).len = min (st.len + chunk.length) C ∧
    (sdl_callback C st chunk).pos = (st.pos + chunk.length) % C ∧
    (sdl_callback C st chunk).len = C := by
  refine ⟨?_, ?_, ?_, ?_⟩
  · unfold wasapi_push; split <;> rfl
  · unfold wasapi_push
    by_cases hw : C < st.pos + chunk.length
    · rw [if_pos hw]; dsimp only; omega
    · rw [if_neg hw]
  · unfold sdl_callback
    by_cases hw : C < st.pos + chunk.length
    · rw [if_pos hw]; dsimp only
      rw [Nat.mod_eq_sub_mod (by omega), Nat.mod_eq_of_lt (by omega)]
      omega
    · rw [if_neg hw]; dsimp only
      by_cases hc : C ≤ st.pos + chunk.length
      · rw [if_pos hc]
        have he : st.pos + chunk.length = C := by omega
        rw [he, Nat.mod_self]
      · rw [if_neg hc, Nat.mod_eq_of_lt (by omega)]
  · unfold sdl_callback; split <;> rfl

/-- Witness for `push_state_update`: one sample into an empty capacity-2
buffer. -/
theorem push_state_update_witness :
    (wasapi_push 2 rbEmpty [(7 : ℚ)]).pos = (rbEmpty.pos + [(7 : ℚ)].length) % 2 ∧
    (wasapi_push 2 rbEmpty [(7 : ℚ)]).len = min (rbEmpty.len + [(7 : ℚ)].length) 2 ∧
    (sdl_callback 2 rbEmpty [(7 : ℚ)]).pos = (rbEmpty.pos + [(7 : ℚ)].length) % 2 ∧
    (sdl_callback 2 rbEmpty [(7 : ℚ)]).len = 2 :=
  push_state_update 2 rbEmpty [7] (by norm_num) (by decide) (by decide)
    (by decide) (by decide)

/-! ### Ring-buffer storage lemmas -/

lemma writeAt_of_mem (buf : ℕ → ℚ) (start : ℕ) (data : List ℚ) (k : ℕ)
    (h1 : start ≤ k) (h2 : k < start + data.length) :
    writeAt buf start data k = data.getD (k - start) 0 := by
  simp [writeAt, h1, h2]

lemma writeAt_of_notmem (buf : ℕ → ℚ) (start : ℕ) (data : List ℚ) (k : ℕ)
    (h : ¬ (start ≤ k ∧ k < start + data.length)) :
    writeAt buf start data k = buf k := by
  simp only [writeAt, if_neg h]

/-- The slot `(writePos + j) mod C` holds the `j`-th sample of the chunk
just pushed, for either branch of the WASAPI push. -/
lemma wasapi_push_buf_new (C : ℕ) (st : RB) (chunk : List ℚ) (hC : 0 < C)
    (hpos : st.pos < C) (hk : chunk.length ≤ C) :
    ∀ j, j < chunk.length →
      (wasapi_push C st chunk).buf ((st.pos + j) % C) = chunk.getD j 0 := by
  intro j hj
  unfold wasapi_push
  by_cases hw : C < st.pos + chunk.length
  · rw [if_pos hw]; dsimp only
    by_cases hj0 : j < C - st.pos
    · have hm : (st.pos + j) % C = st.pos + j := Nat.mod_eq_of_lt (by omega)
      rw [hm]
      rw [writeAt_of_notmem]
      · rw [writeAt_of_mem _ _ _ _ (by omega)
          (by rw [List.length_take]; omega)]
        have he : st.pos + j - st.pos = j := by omega
        rw [he, getD_take _ _ _ hj0]
      · rintro ⟨-, hlt⟩
        rw [List.length_drop] at hlt
        omega
    · have hm : (st.pos + j) % C = st.pos + j - C := by
        rw [Nat.mod_eq_sub_mod (by omega), Nat.mod_eq_of_lt (by omega)]
      rw [hm]
      rw [writeAt_of_mem _ _ _ _ (by omega)
        (by rw [List.length_drop]; omega)]
      rw [Nat.sub_zero, getD_drop]
      congr 1
      omega
  · rw [if_neg hw]; dsimp only
    have hm : (st.pos + j) % C = st.pos + j := Nat.mod_eq_of_lt (by omega)
    rw [hm, writeAt_of_mem _ _ _ _ (by omega) (by omega)]
    congr 1
    omega

/-- Slots not touched by the chunk keep their old value, for either branch
of the WASAPI push. -/
lemma wasapi_push_buf_old (C : ℕ) (st : RB) (chunk : List ℚ) (hC : 0 < C)
    (hpos : st.pos < C) (hk : chunk.length ≤ C) (m : ℕ) (hm : m < C)
    (hnot : ∀ j, j < chunk.length → (st.pos + j) % C ≠ m) :
    (wasapi_push C st chunk).buf m = st.buf m := by
  unfold wasapi_push
  by_cases hw : C < st.pos + chunk.length
  · rw [if_pos hw]; dsimp only
    rw [writeAt_of_notmem, writeAt_of_notmem]
    · rintro ⟨h1, h2⟩
      rw [List.length_take] at h2
      refine hnot (m - st.pos) (by omega) ?_
      rw [Nat.add_sub_cancel' h1, Nat.mod_eq_of_lt hm]
    · rintro ⟨-, h2⟩
      rw [List.length_drop] at h2
      refine hnot (C - st.pos + m) (by omega) ?_
      have he : st.pos + (C - st.pos + m) = C + m := by omega
      rw [he, Nat.add_mod_left, Nat.mod_eq_of_lt hm]
  · rw [if_neg hw]; dsimp only
    rw [writeAt_of_notmem]
    rintro ⟨h1, h2⟩
    refine hnot (m - st.pos) (by omega) ?_
    rw [Nat.add_sub_cancel' h1, Nat.mod_eq_of_lt hm]

/-- The SDL callback writes exactly the same storage as the WASAPI push. -/
lemma sdl_callback_buf (C : ℕ) (st : RB) (chunk : List ℚ) :
    (sdl_callback C st chunk).buf = (wasapi_push C st chunk).buf := by
  unfold sdl_callback wasapi_push
  split <;> rfl

/-- The SDL callback advances the write position exactly as the WASAPI
push does. -/
lemma sdl_callback_pos (C : ℕ) (st : RB) (chunk : List ℚ) (hC : 0 < C)
    (hpos : st.pos < C) (hk : chunk.length ≤ C) :
    (sdl_callback C st chunk).pos = (wasapi_push C st chunk).pos := by
  unfold sdl_callback wasapi_push
  by_cases hw : C < st.pos + chunk.length
  · rw [if_pos hw, if_pos hw]; dsimp only
    rw [Nat.mod_eq_sub_mod (by omega), Nat.mod_eq_of_lt (by omega)]
    omega
  · rw [if_neg hw, if_neg hw]; dsimp only
    by_cases hc : C ≤ st.pos + chunk.length
    · rw [if_pos hc]
      have he : st.pos + chunk.length = C := by omega
      rw [he, Nat.mod_self]
    · rw [if_neg hc, Nat.mod_eq_of_lt (by omega)]

/-! ### The history invariant is preserved by pushes -/

lemma RingInv_empty (C : ℕ) (hC : 0 < C) : RingInv C rbEmpty [] := by
  constructor
  · simp [rbEmpty]
  · intro i hi
    simp at hi

lemma RingInv_wasapi_push (C : ℕ) (st : RB) (h : List ℚ) (chunk : List ℚ)
    (hC : 0 < C) (hk : chunk.length ≤ C) (hinv : RingInv C st h) :
    RingInv C (wasapi_push C st chunk) (h ++ chunk) := by
  obtain ⟨hpos, hbuf⟩ := hinv
  have hposlt : st.pos < C := by rw [hpos]; exact Nat.mod_lt _ hC
  constructor
  · have hpp : (wasapi_push C st chunk).pos = (st.pos + chunk.length) % C := by
      unfold wasapi_push; split <;> rfl
    rw [hpp, hpos, List.length_append, Nat.mod_add_mod]
  · intro i hi
    rw [List.length_append] at hi ⊢
    by_cases hiK : i < chunk.length
    · have hjK : chunk.length - 1 - i < chunk.length := by omega
      have hidx : h.length + chunk.length + C - 1 - i
          = h.length + (chunk.length - 1 - i) + C := by omega
      rw [hidx, Nat.add_mod_right]
      have h3 : (h.length + (chunk.length - 1 - i)) % C
          = (st.pos + (chunk.length - 1 - i)) % C := by
        rw [hpos, Nat.mod_add_mod]
      rw [h3, wasapi_push_buf_new C st chunk hC hposlt hk _ hjK]
      have hidx2 : h.length + chunk.length - 1 - i
          = h.length + (chunk.length - 1 - i) := by omega
      rw [hidx2, List.getD_append_right _ _ _ _ (by omega)]
      congr 1
      omega
    · have hiC : i < C := by omega
      have hiL : i - chunk.length < min h.length C := by omega
      have hidx : h.length + chunk.length + C - 1 - i
          = h.length + C - 1 - (i - chunk.length) := by omega
      rw [hidx]
      rw [wasapi_push_buf_old C st chunk hC hposlt hk _ (Nat.mod_lt _ hC) ?_]
      · rw [hbuf (i - chunk.length) hiL]
        have he : h.length + chunk.length - 1 - i
            = h.length - 1 - (i - chunk.length) := by omega
        rw [he, List.getD_append _ _ _ _ (by omega)]
      · intro j hjk heq
        have e1 : (st.pos + j) % C = (h.length + j) % C := by
          rw [hpos, Nat.mod_add_mod]
        have e2 : h.length + C - 1 - (i - chunk.length)
            = h.length + (C - 1 - (i - chunk.length)) := by omega
        rw [e1, e2] at heq
        have := addModInj C h.length j (C - 1 - (i - chunk.length))
          (by omega) (by omega) heq
        omega

lemma RingInv_sdl_callback (C : ℕ) (st : RB) (h : List ℚ) (chunk : List ℚ)
    (hC : 0 < C) (hk : chunk.length ≤ C) (hinv : RingInv C st h) :
    RingInv C (sdl_callback C st chunk) (h ++ chunk) := by
  have hposlt : st.pos < C := by rw [hinv.1]; exact Nat.mod_lt _ hC
  have hw := RingInv_wasapi_push C st h chunk hC hk hinv
  constructor
  · rw [sdl_callback_pos C st chunk hC hposlt hk]; exact hw.1
  · intro i hi
    rw [show (sdl_callback C st chunk).buf = (wasapi_push C st chunk).buf from
      sdl_callback_buf C st chunk]
    exact hw.2 i hi

lemma wasapi_push_len_inv (C : ℕ) (st : RB) (h : List ℚ) (chunk : List ℚ)
    (hC : 0 < C) (hk : chunk.length ≤ C) (hpos : st.pos = h.length % C)
    (hlen : st.len = min h.length C) :
    (wasapi_push C st chunk).len = min (h ++ chunk).length C := by
  have hml : h.length % C ≤ h.length := Nat.mod_le _ _
  rw [List.length_append]
  unfold wasapi_push
  by_cases hw : C < st.pos + chunk.length
  · rw [if_pos hw]; dsimp only
    rw [hpos] at hw
    omega
  · rw [if_neg hw]; dsimp only
    rw [hlen]
    omega

lemma WasapiInv_foldl (C : ℕ) (hC : 0 < C) :
    ∀ (chunks : List (List ℚ)) (st : RB) (h : List ℚ),
      (∀ c ∈ chunks, c.length ≤ C) → WasapiInv C st h →
      WasapiInv C (List.foldl (wasapi_push C) st chunks) (h ++ chunks.flatten) := by
  intro chunks
  induction chunks with
  | nil => intro st h _ hinv; simpa using hinv
  | cons c cs ih =>
    intro st h hall hinv
    rw [List.foldl_cons, List.flatten_cons, ← List.append_assoc]
    refine ih (wasapi_push C st c) (h ++ c)
      (fun d hd => hall d (List.mem_cons_of_mem _ hd)) ⟨?_, ?_⟩
    · exact RingInv_wasapi_push C st h c hC
        (hall c (List.mem_cons_self c cs)) hinv.1
    · exact wasapi_push_len_inv C st h c hC
        (hall c (List.mem_cons_self c cs)) hinv.1.1 hinv.2

lemma RingInv_sdl_foldl (C : ℕ) (hC : 0 < C) :
    ∀ (chunks : List (List ℚ)) (st : RB) (h : List ℚ),
      (∀ c ∈ chunks, c.length ≤ C) → RingInv C st h →
      RingInv C (List.foldl (sdl_callback C) st chunks) (h ++ chunks.flatten) := by
  intro chunks
  induction chunks with
  | nil => intro st h _ hinv; simpa using hinv
  | cons c cs ih =>
    intro st h hall hinv
    rw [List.foldl_cons, List.flatten_cons, ← List.append_assoc]
    exact ih (sdl_callback C st c) (h ++ c)
      (fun d hd => hall d (List.mem_cons_of_mem _ hd))
      (RingInv_sdl_callback C st h c hC (hall c (List.mem_cons_self c cs)) hinv)

lemma sdl_foldl_len (C : ℕ) :
    ∀ (chunks : List (List ℚ)) (st : RB), chunks ≠ [] →
      (List.foldl (sdl_callback C) st chunks).len = C := by
  intro chunks
  induction chunks with
  | nil => intro st hne; exact absurd rfl hne
  | cons c cs ih =>
    intro st _
    by_cases hcs : cs = []
    · subst hcs
      rw [List.foldl_cons, List.foldl_nil]
      unfold sdl_callback; split <;> rfl
    · rw [List.foldl_cons]
      exact ih _ hcs

/-! ### Reading the ring: split copies as modular reads -/

lemma modRead_congr (C : ℕ) (buf : ℕ → ℚ) (s0 s1 n : ℕ)
    (h : s0 % C = s1 % C) : modRead C buf s0 n = modRead C buf s1 n := by
  unfold modRead
  apply List.map_congr_left
  intro j _
  rw [← Nat.mod_add_mod, h, Nat.mod_add_mod]

lemma split_read_eq_modRead (C : ℕ) (buf : ℕ → ℚ) (s0 n : ℕ) (hC : 0 < C)
    (hs : s0 ≤ C) (hn : n ≤ C) :
    (if C < s0 + n then
      (List.range (C - s0)).map (fun j => buf (s0 + j)) ++
        (List.range (n - (C - s0))).map (fun j => buf j)
    else (List.range n).map (fun j => buf (s0 + j)))
      = modRead C buf s0 n := by
  unfold modRead
  by_cases hw : C < s0 + n
  · rw [if_pos hw]
    have hsplit : n = (C - s0) + (n - (C - s0)) := by omega
    conv_rhs => rw [hsplit]
    rw [List.range_add, List.map_append, List.map_map]
    congr 1
    · apply List.map_congr_left
      intro j hj
      rw [List.mem_range] at hj
      rw [Nat.mod_eq_of_lt (by omega)]
    · apply List.map_congr_left
      intro j hj
      rw [List.mem_range] at hj
      show buf j = buf ((s0 + (C - s0 + j)) % C)
      have he : s0 + (C - s0 + j) = C + j := by omega
      rw [he, Nat.add_mod_left, Nat.mod_eq_of_lt (by omega)]
  · rw [if_neg hw]
    apply List.map_congr_left
    intro j hj
    rw [List.mem_range] at hj
    rw [Nat.mod_eq_of_lt (by omega)]

lemma wasapi_get_core_eq_modRead (C : ℕ) (st : RB) (nReq : ℕ) (hC : 0 < C)
    (hpos : st.pos < C) (hlen : st.len ≤ C) :
    wasapi_get_core C st nReq
      = modRead C st.buf (st.pos + C - min nReq st.len) (min nReq st.len) := by
  simp only [wasapi_get_core]
  have hmin : (if st.len < nReq then st.len else nReq) = min nReq st.len := by
    split <;> omega
  rw [hmin]
  set n := min nReq st.len with hdefn
  have hnC : n ≤ C := by omega
  have key : ∃ s0 : ℕ,
      ((if ((st.pos : ℤ) - (n : ℤ)) < 0 then
          ((st.pos : ℤ) - (n : ℤ)) + (C : ℤ)
        else ((st.pos : ℤ) - (n : ℤ))).toNat) = s0 ∧
      s0 ≤ C ∧ s0 % C = (st.pos + C - n) % C := by
    by_cases hc : st.pos < n
    · refine ⟨st.pos + C - n, ?_, by omega, rfl⟩
      rw [if_pos (by omega)]
      omega
    · refine ⟨st.pos - n, ?_, by omega, ?_⟩
      · rw [if_neg (by omega)]
        omega
      · have he : st.pos + C - n = (st.pos - n) + C := by omega
        rw [he, Nat.add_mod_right]
  obtain ⟨s0, he, hle, hmod⟩ := key
  rw [he]
  rw [split_read_eq_modRead C st.buf s0 n hC hle hnC]
  exact modRead_congr C st.buf s0 _ _ hmod

lemma sdl_get_core_eq_modRead (C : ℕ) (st : RB) (n : ℕ) (hC : 0 < C)
    (hpos : st.pos < C) (hn1 : n ≤ st.len) (hlen : st.len ≤ C) :
    sdl_get_core C st n = modRead C st.buf (st.pos + C - n) n := by
  unfold sdl_get_core
  rw [if_neg (not_lt.mpr hn1)]
  dsimp only
  have hple : (if n < st.pos then st.pos - n else C - (n - st.pos)) ≤ C := by
    split <;> omega
  have hpmod : (if n < st.pos then st.pos - n else C - (n - st.pos)) % C
      = (st.pos + C - n) % C := by
    by_cases hc : n < st.pos
    · rw [if_pos hc]
      have he : st.pos + C - n = (st.pos - n) + C := by omega
      rw [he, Nat.add_mod_right]
    · rw [if_neg hc]
      have he : C - (n - st.pos) = st.pos + C - n := by omega
      rw [he]
  set p := if n < st.pos then st.pos - n else C - (n - st.pos) with hp
  have hsr := split_read_eq_modRead C st.buf p n hC hple (by omega)
  by_cases hc : p + n ≤ C
  · rw [if_pos hc]
    rw [if_neg (not_lt.mpr hc)] at hsr
    rw [hsr]
    exact modRead_congr C st.buf p _ n hpmod
  · rw [if_neg hc]
    rw [if_pos (by omega)] at hsr
    rw [hsr]
    exact modRead_congr C st.buf p _ n hpmod

/-- On a state satisfying the history invariant, a modular read of the `n`
most recent slots returns the suffix of length `n` of the push history. -/
lemma modRead_eq_takeTail (C : ℕ) (st : RB) (h : List ℚ) (n : ℕ) (hC : 0 < C)
    (hinv : RingInv C st h) (hn : n ≤ min h.length C) :
    modRead C st.buf (st.pos + C - n) n = takeTail h n := by
  obtain ⟨hpos, hbuf⟩ := hinv
  have hposlt : st.pos < C := by rw [hpos]; exact Nat.mod_lt _ hC
  apply List.ext_get
  · simp only [modRead, takeTail, List.length_map, List.length_range,
      List.length_drop]
    omega
  · intro i h1 h2
    simp only [modRead, List.length_map, List.length_range] at h1
    simp only [modRead, List.get_eq_getElem, List.getElem_map,
      List.getElem_range]
    have e1 : (st.pos + C - n + i) % C = (h.length + (C - n + i)) % C := by
      have he : st.pos + C - n + i = st.pos + (C - n + i) := by omega
      rw [he, hpos, Nat.mod_add_mod]
    have e2 : h.length + (C - n + i) = h.length + C - 1 - (n - 1 - i) := by
      omega
    rw [e1, e2, hbuf (n - 1 - i) (by omega)]
    have e3 : h.length - 1 - (n - 1 - i) = h.length - n + i := by omega
    rw [e3]
    unfold takeTail
    rw [List.getElem_drop, List.getD_eq_getElem]

/-! ### Claim C1 — what a snapshot returns -/

/-- C1 (counterexample): the SDL `audio_async::get` does not truncate an
over-long request.  After pushing two samples into a capacity-2 buffer
(`validLen = 2`), requesting 3 samples returns the empty vector, although
the claimed contract is the truncated length `min(3, validLen) = 2`. -/
theorem sdl_get_empty_on_over_request_cex :
    sdl_get_core 2 (sdl_callback 2 rbEmpty [1, 2]) 3 = [] ∧
    min 3 (sdl_callback 2 rbEmpty [(1 : ℚ), 2]).len = 2 := by
  constructor <;> rfl

/-- C1 (amended): for any sequence of pushes (each chunk at most the
capacity) from the empty state, the WASAPI `get` returns exactly the most
recent `min(nSamples, validLen)` pushed samples in chronological
oldest-first order (with `validLen = min(totalPushed, C)`), truncating
over-long requests; the SDL `get` returns that suffix only when
`nSamples ≤ validLen` — over-long requests yield the empty result (see the
counterexample). -/
theorem ring_get_returns_recent_history (C : ℕ) (chunks : List (List ℚ))
    (nReq n : ℕ) (hC : 0 < C) (hall : ∀ c ∈ chunks, c.length ≤ C)
    (hn : n ≤ min chunks.flatten.length C) :
    wasapi_get_core C (List.foldl (wasapi_push C) rbEmpty chunks) nReq
      = takeTail chunks.flatten (min nReq (min chunks.flatten.length C)) ∧
    sdl_get_core C (List.foldl (sdl_callback C) rbEmpty chunks) n
      = takeTail chunks.flatten n := by
  have hwinv : WasapiInv C (List.foldl (wasapi_push C) rbEmpty chunks)
      chunks.flatten := by
    have h0 : WasapiInv C rbEmpty [] := ⟨RingInv_empty C hC, by simp [rbEmpty]⟩
    have := WasapiInv_foldl C hC chunks rbEmpty [] hall h0
    simpa using this
  have hsinv : RingInv C (List.foldl (sdl_callback C) rbEmpty chunks)
      chunks.flatten := by
    have := RingInv_sdl_foldl C hC chunks rbEmpty [] hall (RingInv_empty C hC)
    simpa using this
  constructor
  · obtain ⟨hrinv, hlen⟩ := hwinv
    have hposlt : (List.foldl (wasapi_push C) rbEmpty chunks).pos < C := by
      rw [hrinv.1]; exact Nat.mod_lt _ hC
    rw [wasapi_get_core_eq_modRead C _ nReq hC hposlt (by omega), hlen]
    exact modRead_eq_takeTail C _ chunks.flatten _ hC hrinv (by omega)
  · have hposlt : (List.foldl (sdl_callback C) rbEmpty chunks).pos < C := by
      rw [hsinv.1]; exact Nat.mod_lt _ hC
    have hlenb : n ≤ (List.foldl (sdl_callback C) rbEmpty chunks).len := by
      by_cases hch : chunks = []
      · subst hch
        simp at hn
        omega
      · rw [sdl_foldl_len C chunks rbEmpty hch]
        omega
    have hslen : (List.foldl (sdl_callback C) rbEmpty chunks).len ≤ C := by
      by_cases hch : chunks = []
      · subst hch
        simp [rbEmpty]
      · rw [sdl_foldl_len C chunks rbEmpty hch]
    rw [sdl_get_core_eq_modRead C _ n hC hposlt hlenb hslen]
    exact modRead_eq_takeTail C _ chunks.flatten n hC hsinv hn

/-- Witness for `ring_get_returns_recent_history`: capacity 3, pushes
`[1,2]` then `[3,4]`, both reads request 2 samples and obtain `[3, 4]`. -/
theorem ring_get_returns_recent_history_witness :
    wasapi_get_core 3 (List.foldl (wasapi_push 3) rbEmpty [[1, 2], [3, 4]]) 2
      = takeTail ([[1, 2], [3, 4]] : List (List ℚ)).flatten
          (min 2 (min ([[1, 2], [3, 4]] : List (List ℚ)).flatten.length 3)) ∧
    sdl_get_core 3 (List.foldl (sdl_callback 3) rbEmpty [[1, 2], [3, 4]]) 2
      = takeTail ([[1, 2], [3, 4]] : List (List ℚ)).flatten 2 :=
  ring_get_returns_recent_history 3 [[1, 2], [3, 4]] 2 2 (by norm_num)
    (by simp) (by simp)
